import Mathlib

/-!
Shallow embedding of the fetch MCP server (`src/build/index.js`).

The server is a linear pipeline: HTTP fetch, optional readability
extraction, HTML-to-markdown conversion, optional metadata harvesting,
and final assembly, exposed through two tools (`fetch_url`,
`fetch_urls`).  External collaborators (the HTTP client, the DOM
parser, the readability heuristic, the markdown rule engine and the
clock) are modelled as explicit inputs or, where the repository
configures them, as small faithful models; every piece of decision
logic written in `src/build/index.js` itself is translated directly.
-/

namespace Fetch

/-- Parsed HTML document tree.  The DOM parser collaborator is out of
scope, so documents are embedded as their parse trees: an element with
a tag, an attribute list and children, or a text node. -/
inductive Html where
  | text (s : String)
  | elem (tag : String) (attrs : List (String × String)) (children : List Html)

/-- Render an attribute list back to its HTML source form. -/
def renderAttrs : List (String × String) → String
  | [] => ""
  | (k, v) :: rest => " " ++ k ++ "=\"" ++ v ++ "\"" ++ renderAttrs rest

mutual

/-- Render a document tree back to an HTML string (the `outerHTML`
used by the converter's keep-verbatim rule). -/
def renderHtml : Html → String
  | .text s => s
  | .elem tag attrs children =>
      "<" ++ tag ++ renderAttrs attrs ++ ">" ++ renderHtmlList children ++ "</" ++ tag ++ ">"

/-- Render a list of sibling nodes back to HTML, in order. -/
def renderHtmlList : List Html → String
  | [] => ""
  | c :: cs => renderHtml c ++ renderHtmlList cs

end

/-- Elements kept verbatim as raw HTML: `turndownService.keep(['iframe', 'video', 'audio'])`
(src/build/index.js line 23). -/
def keepTags : List String := ["iframe", "video", "audio"]

/-- Elements rendered as strikethrough by the custom rule
`turndownService.addRule('strikethrough', ...)` (src/build/index.js lines 25-30). -/
def strikeTags : List String := ["del", "s", "strike"]

/-- Markdown delimiters wrapped around the converted children of an
element that is not kept verbatim: the custom strikethrough rule
`'~~' + content + '~~'` (src/build/index.js lines 25-30) and the
configured conventions (ATX headings, fenced code blocks, `-` bullet
marker, `*` and `**` emphasis delimiters); an element with no matching
rule contributes its children's conversion bare. -/
def mdDelims (tag : String) : String × String :=
  if tag ∈ strikeTags then ("~~", "~~")
  else if tag = "h1" then ("# ", "\n\n")
  else if tag = "h2" then ("## ", "\n\n")
  else if tag = "h3" then ("### ", "\n\n")
  else if tag = "h4" then ("#### ", "\n\n")
  else if tag = "h5" then ("##### ", "\n\n")
  else if tag = "h6" then ("###### ", "\n\n")
  else if tag = "p" then ("", "\n\n")
  else if tag = "em" ∨ tag = "i" then ("*", "*")
  else if tag = "strong" ∨ tag = "b" then ("**", "**")
  else if tag = "li" then ("- ", "\n")
  else if tag = "ul" ∨ tag = "ol" then ("", "\n")
  else if tag = "code" then ("`", "`")
  else if tag = "pre" then ("```\n", "\n```\n\n")
  else ("", "")

mutual

/-- Modelled from the spec: the Turndown markdown rule engine is an
external library; this model applies the conventions the repository
configures (src/build/index.js lines 15-30 and spec section 4.2):
verbatim raw-HTML passthrough for the kept elements, and otherwise the
`mdDelims` rule for the tag wrapped around the conversion of the
children. -/
def turndown : Html → String
  | .text s => s
  | .elem tag attrs children =>
      if tag ∈ keepTags then renderHtml (.elem tag attrs children)
      else (mdDelims tag).1 ++ turndownList children ++ (mdDelims tag).2

/-- Conversion of a list of sibling nodes: concatenation of the
conversions, in document order. -/
def turndownList : List Html → String
  | [] => ""
  | c :: cs => turndown c ++ turndownList cs

end

/-! ## Substring matching (JavaScript `String.prototype.includes`) -/

/-- Boolean test that the first list is a prefix of the second. -/
def hasPrefixL : List Char → List Char → Bool
  | [], _ => true
  | _ :: _, [] => false
  | p :: ps, c :: cs => p == c && hasPrefixL ps cs

/-- Boolean test that the first list occurs contiguously inside the second. -/
def hasSubL (pat : List Char) : List Char → Bool
  | [] => hasPrefixL pat []
  | c :: cs => hasPrefixL pat (c :: cs) || hasSubL pat cs

/-- JavaScript `s.includes(pat)`: `pat` occurs contiguously in `s`. -/
def jsIncludes (s pat : String) : Bool := hasSubL pat.data s.data

/-! ## Ordered string-keyed metadata map (JavaScript object semantics) -/

/-- Ordered mapping of string keys to string values, as iterated by
`Object.entries`: insertion order, unique keys. -/
abbrev Metadata := List (String × String)

/-- Assignment `m[k] = v` on a JavaScript object: an existing key keeps
its position and gets the new value; a fresh key is appended last. -/
def mInsert : Metadata → String → String → Metadata
  | [], k, v => [(k, v)]
  | kv :: rest, k, v =>
      if kv.1 == k then (kv.1, v) :: rest else kv :: mInsert rest k v

/-- Property read `m[k]` on a JavaScript object. -/
def mLookup (m : Metadata) (k : String) : Option String :=
  (m.find? (fun kv => kv.1 == k)).map (fun kv => kv.2)

/-! ## DOM queries used by the metadata block (JSDOM collaborator) -/

mutual

/-- Attribute lists of every `meta` element, in document (pre-order)
order, as returned by `document.querySelectorAll('meta')`. -/
def findMetas : Html → List (List (String × String))
  | .text _ => []
  | .elem tag attrs children =>
      (if tag = "meta" then [attrs] else []) ++ findMetasList children

/-- Meta elements of a list of sibling subtrees, in order. -/
def findMetasList : List Html → List (List (String × String))
  | [] => []
  | c :: cs => findMetas c ++ findMetasList cs

end

mutual

/-- First `title` element in document order, as returned by
`document.querySelector('title')`. -/
def findTitle : Html → Option Html
  | .text _ => none
  | .elem tag attrs children =>
      if tag = "title" then some (.elem tag attrs children) else findTitleList children

/-- First `title` element among a list of sibling subtrees. -/
def findTitleList : List Html → Option Html
  | [] => none
  | c :: cs =>
      match findTitle c with
      | some t => some t
      | none => findTitleList cs

end

mutual

/-- DOM `textContent`: concatenation of all descendant text, in order. -/
def textContent : Html → String
  | .text s => s
  | .elem _ _ children => textContentList children

/-- Concatenated text content of a list of sibling subtrees. -/
def textContentList : List Html → String
  | [] => ""
  | c :: cs => textContent c ++ textContentList cs

end

/-- JavaScript `String.prototype.trim`: strip whitespace from both
ends. -/
def jsTrim (s : String) : String :=
  ⟨((s.data.dropWhile Char.isWhitespace).reverse.dropWhile Char.isWhitespace).reverse⟩

/-! ## Readability extraction (src/build/index.js lines 32-50) -/

/-- Raw result of `new Readability(document).parse()`: either null or
an article object whose `title` may be empty, whose `content` may be
null, and whose `byline` may be missing or empty. -/
structure RawArticle where
  title : String
  content : Option Html
  byline : Option String

/-- Outcome of the readability collaborator on this document: the
parse either throws internally or returns its raw result. -/
inductive ReadOutcome where
  | throws
  | result (r : Option RawArticle)

/-- Article as returned by `extractReadableContent`: non-empty title,
content tree, and a byline only when the raw byline was truthy. -/
structure Article where
  title : String
  content : Html
  byline : Option String

/-- The helper `extractReadableContent` (src/build/index.js lines
32-50): null on an internal throw, null unless the parsed article and
its `title` and `content` are all truthy; a falsy `byline` becomes
`undefined`. -/
def extractReadableContent : ReadOutcome → Option Article
  | .throws => none
  | .result none => none
  | .result (some r) =>
      match r.content with
      | none => none
      | some c =>
          if r.title = "" then none
          else
            some { title := r.title, content := c,
                   byline := match r.byline with
                             | some b => if b = "" then none else some b
                             | none => none }

/-! ## Transport (axios collaborator) and pipeline environment -/

/-- Outcome of `axios.get` for one request, after the configured
`validateStatus: status < 400` policy: a response (any status, with
its status text and parsed body), an error with a request but no
response, an axios error with neither, or a non-axios throw. -/
inductive TransportEvent where
  | response (status : Nat) (statusText : String) (body : Html)
  | noResponse
  | setupError (msg : String)
  | otherError (msg : String)

/-- World supplied to one `fetchSingleUrl` invocation: what the
transport produced, what the readability parse produced, and the clock
reading `new Date().toISOString()` at completion. -/
structure FetchEnv where
  transport : TransportEvent
  read : ReadOutcome
  now : String

/-- Return value of `fetchSingleUrl`: `{ success: true, content }` or
`{ success: false, error }`. -/
inductive FetchResult where
  | ok (content : String)
  | err (message : String)
deriving DecidableEq, Repr

/-! ## Metadata harvesting (src/build/index.js lines 122-156) -/

/-- Read an attribute as `getAttribute` does: the first binding of
that attribute name, or null when absent. -/
def getAttr (attrs : List (String × String)) (a : String) : Option String :=
  (attrs.find? (fun kv => kv.1 == a)).map (fun kv => kv.2)

/-- Key candidate of a meta tag:
`tag.getAttribute('name') || tag.getAttribute('property')` — the
`property` attribute is consulted when `name` is null or empty. -/
def metaKey (attrs : List (String × String)) : Option String :=
  match getAttr attrs "name" with
  | some n => if n = "" then getAttr attrs "property" else some n
  | none => getAttr attrs "property"

/-- Body of the `metaTags.forEach` callback (src/build/index.js lines
134-152): skip a tag missing a truthy key or content, else classify
the key by substring containment in priority order. -/
def processMeta (m : Metadata) (attrs : List (String × String)) : Metadata :=
  match metaKey attrs, getAttr attrs "content" with
  | some k, some c =>
      if k = "" ∨ c = "" then m
      else if jsIncludes k "description" then mInsert m "description" c
      else if jsIncludes k "author" then mInsert m "author" c
      else if jsIncludes k "keywords" then mInsert m "keywords" c
      else if jsIncludes k "og:" then mInsert m k c
      else m
  | _, _ => m

/-- Title fallback (src/build/index.js lines 126-131): when
`metadata.title` is falsy (absent or empty), store the trimmed text of
the document's first `<title>` element, if there is one. -/
def titleFallback (body : Html) (m : Metadata) : Metadata :=
  if (mLookup m "title").getD "" = "" then
    match findTitle body with
    | some tEl => mInsert m "title" (jsTrim (textContent tEl))
    | none => m
  else m

/-- Metadata after the title fallback and the meta-tag loop, before
the synthetic `url` and `fetchedAt` assignments. -/
def harvestBase (body : Html) (m : Metadata) : Metadata :=
  (findMetas body).foldl processMeta (titleFallback body m)

/-- The whole `if (includeMetadata)` block: title fallback from the
document's `<title>` when `metadata.title` is falsy, the meta-tag
loop, then the unconditional `url` and `fetchedAt` assignments. -/
def harvestMetadata (body : Html) (url now : String) (m : Metadata) : Metadata :=
  mInsert (mInsert (harvestBase body m) "url" url) "fetchedAt" now

/-! ## The fetch pipeline (src/build/index.js lines 82-187) -/

/-- The `if (simplify)` branch (src/build/index.js lines 99-120):
markdown content and the metadata seeded from the extracted article. -/
def simplifyStep (read : ReadOutcome) (body : Html) (includeMetadata simplify : Bool) :
    String × Metadata :=
  if simplify then
    match extractReadableContent read with
    | some article =>
        (turndown article.content,
         if includeMetadata then
           match article.byline with
           | some b => mInsert (mInsert [] "title" article.title) "author" b
           | none => mInsert [] "title" article.title
         else [])
    | none => (turndown body, [])
  else (turndown body, [])

/-- The metadata mapping held in `metadata` at the assembly step:
seeded by the simplify branch and, when metadata was requested,
augmented by `harvestMetadata`. -/
def finalMetadata (read : ReadOutcome) (body : Html) (url now : String)
    (includeMetadata simplify : Bool) : Metadata :=
  if includeMetadata then
    harvestMetadata body url now (simplifyStep read body includeMetadata simplify).2
  else
    (simplifyStep read body includeMetadata simplify).2

/-- Front-matter block built by the assembly loop: `---`, one
`key: value` line per entry in insertion order, `---`, blank line. -/
def renderFrontMatter (m : Metadata) : String :=
  "---\n" ++ m.foldl (fun acc kv => acc ++ (kv.1 ++ ": " ++ kv.2 ++ "\n")) "" ++ "---\n\n"

/-- The helper `fetchSingleUrl` (src/build/index.js lines 82-187).  A
response accepted by `validateStatus` flows through the pipeline; a
rejected status reaches the catch block as an axios error carrying
`error.response`, yielding the `HTTP <status>: <statusText>` message;
the other transport events map to the remaining catch-block arms. -/
def fetchSingleUrl (env : FetchEnv) (url : String) (includeMetadata simplify : Bool) :
    FetchResult :=
  match env.transport with
  | .response status statusText body =>
      if status < 400 then
        let markdownContent := (simplifyStep env.read body includeMetadata simplify).1
        let metadata := finalMetadata env.read body url env.now includeMetadata simplify
        let finalContent :=
          (if includeMetadata = true ∧ 0 < metadata.length then renderFrontMatter metadata
           else "") ++ markdownContent
        .ok finalContent
      else
        .err ("HTTP " ++ toString status ++ ": " ++ statusText)
  | .noResponse => .err "No response received from server"
  | .setupError msg => .err msg
  | .otherError msg => .err msg

/-! ## Tool handlers (src/build/index.js lines 52-80 and 189-233) -/

/-- A tool reply: its single text block and the `isError` flag. -/
structure ToolResponse where
  text : String
  isError : Bool
deriving DecidableEq, Repr

/-- The `fetch_url` handler: a truthy success content is returned as
is; otherwise the error-flagged text
`Error fetching <url>: <error or Unknown error>`. -/
def fetchUrlTool (env : FetchEnv) (url : String) (includeMetadata simplify : Bool) :
    ToolResponse :=
  match fetchSingleUrl env url includeMetadata simplify with
  | .ok c =>
      if c = "" then { text := "Error fetching " ++ url ++ ": Unknown error", isError := true }
      else { text := c, isError := false }
  | .err e =>
      { text := "Error fetching " ++ url ++ ": " ++ (if e = "" then "Unknown error" else e),
        isError := true }

/-- The `for (const url of urls)` loop of the `fetch_urls` handler:
one `fetchSingleUrl` call per URL, in order; the world is indexed by
the position of the call.  Each iteration pushes the url with its
outcome. -/
def fetchUrlsLoop (world : Nat → FetchEnv) (includeMetadata simplify : Bool) :
    Nat → List String → List (String × FetchResult)
  | _, [] => []
  | i, u :: rest =>
      (u, fetchSingleUrl (world i) u includeMetadata simplify) ::
        fetchUrlsLoop world includeMetadata simplify (i + 1) rest

/-- The collected `results` array of the `fetch_urls` handler. -/
def fetchUrlsResults (world : Nat → FetchEnv) (urls : List String)
    (includeMetadata simplify : Bool) : List (String × FetchResult) :=
  fetchUrlsLoop world includeMetadata simplify 0 urls

/-- Report fragment appended for one batch entry: subheading with the
URL, content or `**Error:** <message>` line, horizontal rule. -/
def reportChunk (r : String × FetchResult) : String :=
  "## " ++ r.1 ++ "\n\n" ++
    (match r.2 with
     | .ok c => c ++ "\n\n"
     | .err e => "**Error:** " ++ e ++ "\n\n") ++
    "---\n\n"

/-- The report-building loop of the `fetch_urls` handler. -/
def renderReport (results : List (String × FetchResult)) : String :=
  results.foldl (fun acc r => acc ++ reportChunk r) "# Batch Fetch Results\n\n"

/-- The `fetch_urls` handler: renders the report and returns it with
no error flag. -/
def fetchUrlsTool (world : Nat → FetchEnv) (urls : List String)
    (includeMetadata simplify : Bool) : ToolResponse :=
  { text := renderReport (fetchUrlsResults world urls includeMetadata simplify),
    isError := false }

/-! ## Derived notions used by the specification statements -/

/-- The string `pat` occurs contiguously inside `s`. -/
def SubStr (pat s : String) : Prop :=
  ∃ l r : List Char, s.data = l ++ (pat.data ++ r)

/-- Decision procedure for substring occurrence, through `hasSubL`. -/
instance (pat s : String) : Decidable (SubStr pat s) :=
  decidable_of_iff (hasSubL pat.data s.data = true) (by
    have hpre : ∀ (p l : List Char), hasPrefixL p l = true ↔ ∃ r, l = p ++ r := by
      intro p
      induction p with
      | nil => intro l; simp [hasPrefixL]
      | cons x xs ih =>
          intro l
          cases l with
          | nil => simp [hasPrefixL]
          | cons c cs =>
              simp only [hasPrefixL, Bool.and_eq_true, beq_iff_eq, ih cs, List.cons_append,
                List.cons.injEq]
              constructor
              · rintro ⟨rfl, r, rfl⟩; exact ⟨r, rfl, rfl⟩
              · rintro ⟨r, rfl, rfl⟩; exact ⟨rfl, r, rfl⟩
    have hsub : ∀ (l : List Char),
        hasSubL pat.data l = true ↔ ∃ a b, l = a ++ (pat.data ++ b) := by
      intro l
      induction l with
      | nil =>
          simp only [hasSubL, hpre]
          constructor
          · rintro ⟨r, h⟩; exact ⟨[], r, h⟩
          · rintro ⟨a, b, h⟩
            rcases List.append_eq_nil.mp h.symm with ⟨rfl, h2⟩
            rcases List.append_eq_nil.mp h2 with ⟨hp, rfl⟩
            exact ⟨[], by simp [hp]⟩
      | cons c cs ih =>
          simp only [hasSubL, Bool.or_eq_true, hpre, ih]
          constructor
          · rintro (⟨r, h⟩ | ⟨a, b, h⟩)
            · exact ⟨[], r, by simpa using h⟩
            · exact ⟨c :: a, b, by simp [h]⟩
          · rintro ⟨a, b, h⟩
            cases a with
            | nil => exact Or.inl ⟨b, by simpa using h⟩
            | cons x a =>
                rw [List.cons_append] at h
                injection h with h1 h2
                exact Or.inr ⟨a, b, h2⟩
    exact hsub s.data)

/-- Occurrence of a node in a document outside any kept passthrough
element: the node itself, or an occurrence inside a child of an
element that the converter does not keep verbatim. -/
inductive OccursUnkept (n : Html) : Html → Prop where
  | here : OccursUnkept n n
  | child {tag : String} {attrs : List (String × String)} {children : List Html} {c : Html}
      (hk : tag ∉ keepTags) (hc : c ∈ children) (h : OccursUnkept n c) :
      OccursUnkept n (.elem tag attrs children)

/-- Concatenation of a list of strings, in order. -/
def joinStr : List String → String
  | [] => ""
  | s :: rest => s ++ joinStr rest

/-- Keys of a metadata map, in insertion order. -/
def mKeys (m : Metadata) : List String := m.map Prod.fst

/-- Every entry has a non-empty key and, unless it is the `title`
entry, a non-empty value. -/
def MetaOk (m : Metadata) : Prop :=
  ∀ kv ∈ m, kv.1 ≠ "" ∧ (kv.1 ≠ "title" → kv.2 ≠ "")

/-- Destination key and stored value of a meta tag, as decided by the
classification chain of the meta-tag loop: none when the tag is
skipped or matches no pattern. -/
def destKey (attrs : List (String × String)) : Option (String × String) :=
  match metaKey attrs, getAttr attrs "content" with
  | some k, some c =>
      if k = "" ∨ c = "" then none
      else if jsIncludes k "description" then some ("description", c)
      else if jsIncludes k "author" then some ("author", c)
      else if jsIncludes k "keywords" then some ("keywords", c)
      else if jsIncludes k "og:" then some (k, c)
      else none
  | _, _ => none

/-! ## Substring occurrence -/

theorem SubStr.refl (s : String) : SubStr s s := ⟨[], [], by simp⟩

theorem SubStr.append_left {p s : String} (t : String) (h : SubStr p s) : SubStr p (t ++ s) := by
  rcases h with ⟨l, r, hl⟩
  exact ⟨t.data ++ l, r, by simp [String.data_append, hl]⟩

theorem SubStr.append_right {p s : String} (t : String) (h : SubStr p s) : SubStr p (s ++ t) := by
  rcases h with ⟨l, r, hl⟩
  exact ⟨l, r ++ t.data, by simp [String.data_append, hl]⟩

theorem SubStr.trans {a b c : String} (h1 : SubStr a b) (h2 : SubStr b c) : SubStr a c := by
  rcases h1 with ⟨l1, r1, hl1⟩
  rcases h2 with ⟨l2, r2, hl2⟩
  exact ⟨l2 ++ l1, r1 ++ r2, by simp [hl2, hl1]⟩

theorem subStr_wrap (pre post s : String) : SubStr s (pre ++ s ++ post) :=
  SubStr.append_right post (SubStr.append_left pre (SubStr.refl s))

/-! ## Converted content embeds in the conversion of any ancestor -/

theorem subStr_turndownList_of_mem {c : Html} :
    ∀ {children : List Html}, c ∈ children → SubStr (turndown c) (turndownList children) := by
  intro children h
  induction children with
  | nil => cases h
  | cons x xs ih =>
      rcases List.mem_cons.1 h with rfl | h2
      · exact SubStr.append_right (turndownList xs) (SubStr.refl (turndown c))
      · exact SubStr.append_left (turndown x) (ih h2)

theorem subStr_content_turndown (tag : String) (attrs : List (String × String))
    (children : List Html) (h : tag ∉ keepTags) :
    SubStr (turndownList children) (turndown (.elem tag attrs children)) := by
  rw [turndown, if_neg h]
  exact subStr_wrap (mdDelims tag).1 (mdDelims tag).2 (turndownList children)

/-- C9 (amended): for every document in which a `del`, `s` or `strike`
element with inner text `t` occurs outside any kept passthrough
element (`iframe`, `video`, `audio`), the Markdown Converter's output
contains `~~t~~`. -/
theorem strikethrough_rendering {tg t : String} {attrs : List (String × String)} {doc : Html}
    (htag : tg ∈ strikeTags) (hocc : OccursUnkept (.elem tg attrs [.text t]) doc) :
    SubStr ("~~" ++ t ++ "~~") (turndown doc) := by
  induction hocc with
  | here =>
      have htag3 : tg = "del" ∨ tg = "s" ∨ tg = "strike" := by simpa [strikeTags] using htag
      have hk : tg ∉ keepTags := by rcases htag3 with rfl | rfl | rfl <;> decide
      rw [turndown, if_neg hk, mdDelims, if_pos htag]
      exact ⟨[], [], by simp [turndownList, turndown, String.data_append]⟩
  | child hk hc _ ih =>
      exact (ih.trans (subStr_turndownList_of_mem hc)).trans (subStr_content_turndown _ _ _ hk)

/-- C9 counterexample: the document `<video src="x"><del>text</del></video>`
contains a `del` element with inner text `text`, yet the converter
keeps the `video` element verbatim, so the output is the raw HTML and
does not contain `~~text~~`. -/
theorem strikethrough_counterexample :
    turndown (.elem "video" [("src", "x")] [.elem "del" [] [.text "text"]]) =
      "<video src=\"x\"><del>text</del></video>" ∧
    ¬ SubStr "~~text~~"
        (turndown (.elem "video" [("src", "x")] [.elem "del" [] [.text "text"]])) :=
  ⟨rfl, by decide⟩

/-- C9 witness: input `<del>text</del>` converts to markdown
containing `~~text~~`. -/
theorem strikethrough_rendering_witness :
    SubStr ("~~" ++ "text" ++ "~~") (turndown (.elem "del" [] [.text "text"])) :=
  strikethrough_rendering (by decide) OccursUnkept.here

/-! ## Facts about the metadata map -/

theorem mInsert_ne_nil (m : Metadata) (k v : String) : mInsert m k v ≠ [] := by
  cases m with
  | nil => simp [mInsert]
  | cons kv rest =>
      rw [mInsert]
      split <;> simp

theorem mem_mInsert {kv : String × String} {k v : String} :
    ∀ {m : Metadata}, kv ∈ mInsert m k v → kv ∈ m ∨ kv = (k, v) := by
  intro m
  induction m with
  | nil => intro h; exact Or.inr (List.mem_singleton.mp h)
  | cons kv0 rest ih =>
      intro h
      rw [mInsert] at h
      split at h
      · rename_i hbeq
        rcases List.mem_cons.mp h with h1 | h1
        · exact Or.inr (by rw [h1, beq_iff_eq.mp hbeq])
        · exact Or.inl (List.mem_cons_of_mem kv0 h1)
      · rcases List.mem_cons.mp h with h1 | h1
        · exact Or.inl (h1 ▸ List.mem_cons_self kv0 rest)
        · rcases ih h1 with h2 | h2
          · exact Or.inl (List.mem_cons_of_mem kv0 h2)
          · exact Or.inr h2

theorem mInsert_of_not_mem {k : String} (v : String) :
    ∀ {m : Metadata}, k ∉ mKeys m → mInsert m k v = m ++ [(k, v)] := by
  intro m
  induction m with
  | nil => intro _; rfl
  | cons kv0 rest ih =>
      intro h
      have hne : ¬(kv0.1 == k) := by
        simp only [beq_iff_eq]
        intro hk
        exact h (by rw [← hk]; exact List.mem_map_of_mem Prod.fst (List.mem_cons_self kv0 rest))
      rw [mInsert, if_neg hne, ih (fun hk => h (List.mem_cons_of_mem kv0.1 hk)), List.cons_append]

theorem mem_mKeys_mInsert {m : Metadata} {k v k' : String}
    (h : k' ∈ mKeys (mInsert m k v)) : k' ∈ mKeys m ∨ k' = k := by
  rcases List.mem_map.mp h with ⟨kv, hkv, hf⟩
  rcases mem_mInsert hkv with h1 | h1
  · exact Or.inl (hf ▸ List.mem_map_of_mem Prod.fst h1)
  · right; rw [← hf, h1]

theorem length_pos_mInsert (m : Metadata) (k v : String) : 0 < (mInsert m k v).length := by
  rcases h : mInsert m k v with _ | ⟨kv, rest⟩
  · exact absurd h (mInsert_ne_nil m k v)
  · simp

theorem mLookup_cons (kv : String × String) (rest : Metadata) (k : String) :
    mLookup (kv :: rest) k = if kv.1 == k then some kv.2 else mLookup rest k := by
  rw [mLookup, List.find?_cons]
  by_cases h : kv.1 == k <;> simp [h, mLookup]

theorem mLookup_mInsert_self (k v : String) :
    ∀ (m : Metadata), mLookup (mInsert m k v) k = some v := by
  intro m
  induction m with
  | nil => simp [mInsert, mLookup_cons]
  | cons kv0 rest ih =>
      rw [mInsert]
      split
      · rename_i hbeq
        rw [mLookup_cons, if_pos hbeq]
      · rename_i hbeq
        rw [mLookup_cons, if_neg hbeq, ih]

theorem mLookup_mInsert_ne {k k' : String} (hne : ¬(k = k')) (v : String) :
    ∀ (m : Metadata), mLookup (mInsert m k v) k' = mLookup m k' := by
  intro m
  induction m with
  | nil =>
      rw [show mInsert [] k v = [(k, v)] from rfl, mLookup_cons,
        if_neg (by simpa [beq_iff_eq] using hne)]
  | cons kv0 rest ih =>
      rw [mInsert]
      split
      · rename_i hbeq
        rw [mLookup_cons, mLookup_cons]
        have : ¬(kv0.1 == k') := by
          simp only [beq_iff_eq] at hbeq ⊢
          rw [hbeq]; exact hne
        rw [if_neg this, if_neg this]
      · rw [mLookup_cons, mLookup_cons, ih]

/-! ## C3: HTTP status at least 400 yields the formatted failure -/

/-- C3: for every fetch whose response has status at least 400, the
pipeline returns a Failure outcome whose message is exactly
`HTTP <status>: <statusText>` for that response. -/
theorem http_status_failure (env : FetchEnv) (url : String) (im sp : Bool)
    (st : Nat) (stx : String) (body : Html)
    (h : env.transport = .response st stx body) (h4 : 400 ≤ st) :
    fetchSingleUrl env url im sp = .err ("HTTP " ++ toString st ++ ": " ++ stx) := by
  simp only [fetchSingleUrl, h]
  rw [if_neg (by omega)]

/-- C3 witness: a 404 response produces `HTTP 404: Not Found`. -/
theorem http_status_failure_witness :
    fetchSingleUrl ⟨.response 404 "Not Found" (.elem "div" [] []), .result none, "T"⟩
      "http://x/" false true = .err ("HTTP " ++ toString 404 ++ ": " ++ "Not Found") :=
  http_status_failure _ "http://x/" false true 404 "Not Found" (.elem "div" [] []) rfl
    (by decide)

/-! ## C10: empty success content is reported as an unknown error -/

/-- C10: whenever the pipeline returns a Success outcome whose text is
the empty string, the `fetch_url` tool responds with the error-flagged
payload `Error fetching <url>: Unknown error`, because the handler
tests truthiness of the content string. -/
theorem empty_success_unknown_error (env : FetchEnv) (url : String) (im sp : Bool)
    (h : fetchSingleUrl env url im sp = .ok "") :
    fetchUrlTool env url im sp =
      ⟨"Error fetching " ++ url ++ ": Unknown error", true⟩ := by
  rw [fetchUrlTool, h]
  rfl

/-- C10 witness: a 200 response whose body converts to empty markdown,
with metadata not requested, hits the unknown-error reply. -/
theorem empty_success_unknown_error_witness :
    fetchUrlTool ⟨.response 200 "OK" (.elem "div" [] []), .result none, "T"⟩
      "http://x/" false true =
      ⟨"Error fetching " ++ "http://x/" ++ ": Unknown error", true⟩ :=
  empty_success_unknown_error _ "http://x/" false true rfl

/-! ## C1: the batch loop yields one outcome per URL, in order -/

theorem fetchUrlsLoop_length (world : Nat → FetchEnv) (im sp : Bool) :
    ∀ (urls : List String) (k : Nat),
      (fetchUrlsLoop world im sp k urls).length = urls.length := by
  intro urls
  induction urls with
  | nil => intro k; rfl
  | cons u rest ih => intro k; simp [fetchUrlsLoop, ih (k + 1)]

theorem fetchUrlsLoop_getElem (world : Nat → FetchEnv) (im sp : Bool) :
    ∀ (urls : List String) (k i : Nat),
      (fetchUrlsLoop world im sp k urls)[i]? =
        (urls[i]?).map (fun u => (u, fetchSingleUrl (world (k + i)) u im sp)) := by
  intro urls
  induction urls with
  | nil => intro k i; simp [fetchUrlsLoop]
  | cons u rest ih =>
      intro k i
      cases i with
      | zero => simp [fetchUrlsLoop]
      | succ n =>
          have harith : k + 1 + n = k + (n + 1) := by omega
          simp only [fetchUrlsLoop, List.getElem?_cons_succ, ih (k + 1) n, harith]

/-- C1: for every input list of URLs, the `fetch_urls` handler invokes
the single-URL pipeline once per URL, sequentially in input order, and
produces exactly one outcome per input URL in the same order; a
failure at any position does not affect the presence of the others. -/
theorem fetchMany_outcomes (world : Nat → FetchEnv) (urls : List String) (im sp : Bool) :
    (fetchUrlsResults world urls im sp).length = urls.length ∧
    ∀ i : Nat, (fetchUrlsResults world urls im sp)[i]? =
      (urls[i]?).map (fun u => (u, fetchSingleUrl (world i) u im sp)) := by
  refine ⟨fetchUrlsLoop_length world im sp urls 0, fun i => ?_⟩
  simpa using fetchUrlsLoop_getElem world im sp urls 0 i

/-! ## C8: the batch report -/

theorem foldl_append_joinStr (f : String × FetchResult → String) :
    ∀ (l : List (String × FetchResult)) (a : String),
      l.foldl (fun acc r => acc ++ f r) a = a ++ joinStr (l.map f) := by
  intro l
  induction l with
  | nil => intro a; simp [joinStr]
  | cons x xs ih =>
      intro a
      simp only [List.foldl_cons, List.map_cons, joinStr, ih (a ++ f x), String.append_assoc]

theorem fetchUrlsLoop_map_reportChunk (world : Nat → FetchEnv) (im sp : Bool) :
    ∀ (urls : List String) (k : Nat),
      (fetchUrlsLoop world im sp k urls).map reportChunk =
        (List.enumFrom k urls).map (fun p =>
          "## " ++ p.2 ++ "\n\n" ++
            (match fetchSingleUrl (world p.1) p.2 im sp with
             | .ok c => c ++ "\n\n"
             | .err e => "**Error:** " ++ e ++ "\n\n") ++ "---\n\n") := by
  intro urls
  induction urls with
  | nil => intro k; rfl
  | cons u rest ih =>
      intro k
      simp only [fetchUrlsLoop, List.map_cons, List.enumFrom_cons, ih (k + 1)]
      rfl

/-- C8: for every input list of URLs the `fetch_urls` handler returns
a success payload (never error-flagged) whose text is the top-level
heading followed, for each URL in input order, by a subheading with
that URL, its markdown text on success or an `**Error:** <message>`
line on failure, and a horizontal-rule separator. -/
theorem batch_report (world : Nat → FetchEnv) (urls : List String) (im sp : Bool) :
    (fetchUrlsTool world urls im sp).isError = false ∧
    (fetchUrlsTool world urls im sp).text =
      "# Batch Fetch Results\n\n" ++
        joinStr ((urls.enum).map (fun p =>
          "## " ++ p.2 ++ "\n\n" ++
            (match fetchSingleUrl (world p.1) p.2 im sp with
             | .ok c => c ++ "\n\n"
             | .err e => "**Error:** " ++ e ++ "\n\n") ++ "---\n\n")) := by
  refine ⟨rfl, ?_⟩
  show renderReport (fetchUrlsResults world urls im sp) = _
  rw [renderReport, foldl_append_joinStr reportChunk,
    show (List.enum urls) = List.enumFrom 0 urls from rfl,
    ← fetchUrlsLoop_map_reportChunk world im sp urls 0]
  rfl

/-! ## C6: extraction failure falls back to full-document conversion -/

/-- C6 (amended): when `simplify` is true and content extraction
returns null, the pipeline result is identical to the result of the
same request with `simplify` false — in particular the markdown body
is the conversion of the full raw HTML — and, the pipeline being a
total function into outcomes, no fault escapes it.  (The output can be
empty when the full document converts to empty markdown and metadata
is not requested; the original claim's "never empty" does not hold.) -/
theorem simplify_fallback_equiv (env : FetchEnv) (url : String) (im : Bool)
    (h : extractReadableContent env.read = none) :
    fetchSingleUrl env url im true = fetchSingleUrl env url im false := by
  cases henv : env.transport with
  | response st stx body =>
      have hs : simplifyStep env.read body im true = simplifyStep env.read body im false := by
        simp [simplifyStep, h]
      simp only [fetchSingleUrl, henv, finalMetadata, hs]
  | noResponse => simp [fetchSingleUrl, henv]
  | setupError msg => simp [fetchSingleUrl, henv]
  | otherError msg => simp [fetchSingleUrl, henv]

/-- C6 counterexample: extraction fails (readability returned null)
and the whole document converts to empty markdown, so with metadata
off the output is the empty string — refuting the claim's "the output
is never empty". -/
theorem simplify_fallback_counterexample :
    extractReadableContent (ReadOutcome.result none) = none ∧
    fetchSingleUrl ⟨.response 200 "OK" (.elem "div" [] []), .result none, "T"⟩
      "http://x/" false true = .ok "" ∧
    ¬ (∀ c, fetchSingleUrl ⟨.response 200 "OK" (.elem "div" [] []), .result none, "T"⟩
        "http://x/" false true = .ok c → c ≠ "") :=
  ⟨rfl, rfl, fun hall => hall "" rfl rfl⟩

/-- C6 witness: on a concrete page with no extractable article, the
simplified and unsimplified requests agree. -/
theorem simplify_fallback_equiv_witness :
    fetchSingleUrl ⟨.response 200 "OK" (.elem "p" [] [.text "hi"]), .result none, "T"⟩
      "http://x/" false true =
    fetchSingleUrl ⟨.response 200 "OK" (.elem "p" [] [.text "hi"]), .result none, "T"⟩
      "http://x/" false false :=
  simplify_fallback_equiv _ "http://x/" false rfl

/-! ## C2: an accepted response yields a Success outcome -/

theorem renderFrontMatter_append_ne_empty (m : Metadata) (s : String) :
    renderFrontMatter m ++ s ≠ "" := by
  intro h
  have hd := congrArg String.data h
  simp [renderFrontMatter, String.data_append] at hd

/-- C2 (amended): for every fetch whose response has status < 400, the
pipeline returns a Success outcome; its assembled text is non-empty
whenever metadata was requested, but with metadata off it equals the
converted markdown and may be empty (so the original claim's
unconditional non-emptiness does not hold). -/
theorem success_outcome (env : FetchEnv) (url : String) (im sp : Bool)
    (st : Nat) (stx : String) (body : Html)
    (h : env.transport = .response st stx body) (hlt : st < 400) :
    (∃ c, fetchSingleUrl env url im sp = .ok c) ∧
    (im = true → ∀ c, fetchSingleUrl env url im sp = .ok c → c ≠ "") := by
  constructor
  · simp only [fetchSingleUrl, h]
    rw [if_pos hlt]
    exact ⟨_, rfl⟩
  · rintro rfl c hc
    simp only [fetchSingleUrl, h] at hc
    rw [if_pos hlt] at hc
    have hpos : 0 < (finalMetadata env.read body url env.now true sp).length := by
      rw [finalMetadata, if_pos rfl, harvestMetadata]
      exact length_pos_mInsert _ _ _
    rw [if_pos ⟨trivial, hpos⟩] at hc
    have := (FetchResult.ok.injEq _ _).mp hc
    rw [← this]
    exact renderFrontMatter_append_ne_empty _ _

/-- C2 counterexample: a 200 response whose body is the valid HTML
`<span></span>` converts to empty markdown, so the Success text is
empty — refuting the claim's non-emptiness. -/
theorem success_outcome_counterexample :
    fetchSingleUrl ⟨.response 200 "OK" (.elem "span" [] []), .result none, "T"⟩
      "http://x/" false false = .ok "" ∧
    ¬ (∀ c, fetchSingleUrl ⟨.response 200 "OK" (.elem "span" [] []), .result none, "T"⟩
        "http://x/" false false = .ok c → c ≠ "") :=
  ⟨rfl, fun hall => hall "" rfl rfl⟩

/-- C2 witness: a 200 response with metadata requested yields a
Success outcome with non-empty text. -/
theorem success_outcome_witness :
    (∃ c, fetchSingleUrl ⟨.response 200 "OK" (.elem "p" [] [.text "hi"]), .result none, "T"⟩
        "http://x/" true true = .ok c) ∧
    (true = true → ∀ c,
      fetchSingleUrl ⟨.response 200 "OK" (.elem "p" [] [.text "hi"]), .result none, "T"⟩
        "http://x/" true true = .ok c → c ≠ "") :=
  success_outcome _ "http://x/" true true 200 "OK" (.elem "p" [] [.text "hi"]) rfl
    (by decide)

/-! ## C5: emptiness of metadata entries -/

theorem extract_facts {ro : ReadOutcome} {a : Article}
    (h : extractReadableContent ro = some a) :
    a.title ≠ "" ∧ (∀ b, a.byline = some b → b ≠ "") := by
  cases ro with
  | throws => simp [extractReadableContent] at h
  | result r =>
      cases r with
      | none => simp [extractReadableContent] at h
      | some raw =>
          rcases hc : raw.content with _ | c
          · simp [extractReadableContent, hc] at h
          · simp only [extractReadableContent, hc] at h
            split at h
            · cases h
            · rename_i hti
              cases h
              refine ⟨hti, ?_⟩
              intro b hb
              rcases hby : raw.byline with _ | b0
              · simp only [hby] at hb
                cases hb
              · simp only [hby] at hb
                by_cases hb0 : b0 = ""
                · rw [if_pos hb0] at hb; cases hb
                · rw [if_neg hb0] at hb
                  cases hb
                  exact hb0

theorem metaOk_nil : MetaOk [] := by
  intro kv h; cases h

theorem metaOk_mInsert {m : Metadata} (h : MetaOk m) {k v : String}
    (hk : k ≠ "") (hv : k ≠ "title" → v ≠ "") : MetaOk (mInsert m k v) := by
  intro kv hkv
  rcases mem_mInsert hkv with h1 | rfl
  · exact h kv h1
  · exact ⟨hk, hv⟩

theorem metaOk_processMeta {m : Metadata} (h : MetaOk m)
    (attrs : List (String × String)) : MetaOk (processMeta m attrs) := by
  rcases hmk : metaKey attrs with _ | k
  · simpa only [processMeta, hmk] using h
  · rcases hct : getAttr attrs "content" with _ | c
    · simpa only [processMeta, hmk, hct] using h
    · simp only [processMeta, hmk, hct]
      split
      · exact h
      · rename_i hguard
        rw [not_or] at hguard
        obtain ⟨hk, hc⟩ := hguard
        split
        · exact metaOk_mInsert h (by decide) (fun _ => hc)
        · split
          · exact metaOk_mInsert h (by decide) (fun _ => hc)
          · split
            · exact metaOk_mInsert h (by decide) (fun _ => hc)
            · split
              · exact metaOk_mInsert h hk (fun _ => hc)
              · exact h

theorem metaOk_processMetas :
    ∀ (tags : List (List (String × String))) {m : Metadata}, MetaOk m →
      MetaOk (tags.foldl processMeta m) := by
  intro tags
  induction tags with
  | nil => intro m h; exact h
  | cons t ts ih => intro m h; exact ih (metaOk_processMeta h t)

theorem metaOk_titleFallback {m : Metadata} (h : MetaOk m) (body : Html) :
    MetaOk (titleFallback body m) := by
  rw [titleFallback]
  split
  · rcases findTitle body with _ | tEl
    · exact h
    · exact metaOk_mInsert h (by decide) (fun ht => absurd rfl ht)
  · exact h

theorem metaOk_seed (read : ReadOutcome) (body : Html) (im sp : Bool) :
    MetaOk (simplifyStep read body im sp).2 := by
  rw [simplifyStep]
  split
  · rcases hx : extractReadableContent read with _ | a
    · simp only [hx]
      exact metaOk_nil
    · obtain ⟨hti, hby⟩ := extract_facts hx
      simp only [hx]
      split
      · rcases hb : a.byline with _ | b
        · simp only [hb]
          exact metaOk_mInsert metaOk_nil (by decide) (fun ht => absurd rfl ht)
        · simp only [hb]
          exact metaOk_mInsert
            (metaOk_mInsert metaOk_nil (by decide) (fun ht => absurd rfl ht))
            (by decide) (fun _ => hby b hb)
      · exact metaOk_nil
  · exact metaOk_nil

/-- C5 (amended): the metadata mapping assembled by the pipeline never
contains an entry with an empty key, and every entry other than
`title` has a non-empty value (given that the request URL and the
clock reading are non-empty, which the tool schema and `toISOString`
guarantee); the `title` entry alone can be empty, via the `<title>`
fallback on an empty or whitespace-only title. -/
theorem metadata_entries (read : ReadOutcome) (body : Html) (url now : String)
    (im sp : Bool) (hu : url ≠ "") (hn : now ≠ "") :
    ∀ kv ∈ finalMetadata read body url now im sp,
      kv.1 ≠ "" ∧ (kv.1 ≠ "title" → kv.2 ≠ "") := by
  rw [finalMetadata]
  split
  · rw [harvestMetadata, harvestBase]
    exact metaOk_mInsert
      (metaOk_mInsert
        (metaOk_processMetas (findMetas body)
          (metaOk_titleFallback (metaOk_seed read body im sp) body))
        (by decide) (fun _ => hu))
      (by decide) (fun _ => hn)
  · exact metaOk_seed read body im sp

/-- C5 counterexample: a document whose `<title>` text is
whitespace-only makes the pipeline store the entry `("title", "")`
with an empty value in the assembled metadata, refuting the claim. -/
theorem metadata_entries_counterexample :
    finalMetadata (.result none) (.elem "html" [] [.elem "title" [] [.text "   "]])
        "http://x/" "T" true false =
      [("title", ""), ("url", "http://x/"), ("fetchedAt", "T")] ∧
    ("title", "") ∈
      finalMetadata (.result none) (.elem "html" [] [.elem "title" [] [.text "   "]])
        "http://x/" "T" true false ∧
    ¬ (∀ kv ∈ finalMetadata (.result none)
          (.elem "html" [] [.elem "title" [] [.text "   "]]) "http://x/" "T" true false,
        kv.1 ≠ "" ∧ kv.2 ≠ "") :=
  ⟨rfl, by decide, fun hall => (hall ("title", "") (by decide)).2 rfl⟩

/-- C5 witness: on a concrete request the amended invariant holds for
the `url` entry. -/
theorem metadata_entries_witness :
    ("url", "http://x/") ∈
      finalMetadata (.result none) (.elem "div" [] []) "http://x/" "T" true true ∧
    (("url" : String) ≠ "" ∧
      (("url" : String) ≠ "title" → ("http://x/" : String) ≠ "")) :=
  ⟨by decide,
    metadata_entries (.result none) (.elem "div" [] []) "http://x/" "T" true true
      (by decide) (by decide) ("url", "http://x/") (by decide)⟩

/-! ## C7: synthetic url and fetchedAt entries and the front matter -/

theorem frontMatter_foldl (m : Metadata) (a : String) :
    m.foldl (fun acc kv => acc ++ (kv.1 ++ ": " ++ kv.2 ++ "\n")) a =
      a ++ joinStr (m.map (fun kv => kv.1 ++ ": " ++ kv.2 ++ "\n")) := by
  induction m generalizing a with
  | nil => simp [joinStr]
  | cons kv rest ih =>
      rw [List.foldl_cons, ih, List.map_cons]
      simp [joinStr, String.append_assoc]

theorem renderFrontMatter_eq (m : Metadata) :
    renderFrontMatter m =
      "---\n" ++ joinStr (m.map (fun kv => kv.1 ++ ": " ++ kv.2 ++ "\n")) ++ "---\n\n" := by
  rw [renderFrontMatter, frontMatter_foldl, String.empty_append]

theorem subStr_joinStr_of_mem {s : String} :
    ∀ {l : List String}, s ∈ l → SubStr s (joinStr l) := by
  intro l h
  induction l with
  | nil => cases h
  | cons x xs ih =>
      rcases List.mem_cons.mp h with rfl | h2
      · exact SubStr.append_right (joinStr xs) (SubStr.refl s)
      · exact SubStr.append_left x (ih h2)

theorem mKeys_processMeta {m : Metadata} {k : String} (attrs : List (String × String))
    (h : k ∈ mKeys (processMeta m attrs)) :
    k ∈ mKeys m ∨ k = "description" ∨ k = "author" ∨ k = "keywords" ∨
      jsIncludes k "og:" = true := by
  rcases hmk : metaKey attrs with _ | k0
  · left; simpa only [processMeta, hmk] using h
  · rcases hct : getAttr attrs "content" with _ | c
    · left; simpa only [processMeta, hmk, hct] using h
    · simp only [processMeta, hmk, hct] at h
      split at h
      · exact Or.inl h
      · split at h
        · rcases mem_mKeys_mInsert h with h1 | rfl
          · exact Or.inl h1
          · exact Or.inr (Or.inl rfl)
        · split at h
          · rcases mem_mKeys_mInsert h with h1 | rfl
            · exact Or.inl h1
            · exact Or.inr (Or.inr (Or.inl rfl))
          · split at h
            · rcases mem_mKeys_mInsert h with h1 | rfl
              · exact Or.inl h1
              · exact Or.inr (Or.inr (Or.inr (Or.inl rfl)))
            · split at h
              · rename_i hog
                rcases mem_mKeys_mInsert h with h1 | rfl
                · exact Or.inl h1
                · exact Or.inr (Or.inr (Or.inr (Or.inr hog)))
              · exact Or.inl h

theorem mKeys_processMetas {k : String} :
    ∀ (tags : List (List (String × String))) {m : Metadata},
      k ∈ mKeys (tags.foldl processMeta m) →
      k ∈ mKeys m ∨ k = "description" ∨ k = "author" ∨ k = "keywords" ∨
        jsIncludes k "og:" = true := by
  intro tags
  induction tags with
  | nil => intro m h; exact Or.inl h
  | cons t ts ih =>
      intro m h
      rcases @ih (processMeta m t) h with h1 | h1
      · rcases mKeys_processMeta t h1 with h2 | h2
        · exact Or.inl h2
        · exact Or.inr h2
      · exact Or.inr h1

theorem mKeys_titleFallback {m : Metadata} {k : String} {body : Html}
    (h : k ∈ mKeys (titleFallback body m)) : k ∈ mKeys m ∨ k = "title" := by
  rw [titleFallback] at h
  split at h
  · split at h
    · exact mem_mKeys_mInsert h
    · exact Or.inl h
  · exact Or.inl h

theorem mKeys_seed {k : String} (read : ReadOutcome) (body : Html) (im sp : Bool)
    (h : k ∈ mKeys (simplifyStep read body im sp).2) : k = "title" ∨ k = "author" := by
  rw [simplifyStep] at h
  split at h
  · rcases hx : extractReadableContent read with _ | a
    · simp only [hx] at h
      simp [mKeys] at h
    · simp only [hx] at h
      split at h
      · split at h
        · rcases mem_mKeys_mInsert h with h1 | rfl
          · rcases mem_mKeys_mInsert h1 with h2 | rfl
            · simp [mKeys] at h2
            · exact Or.inl rfl
          · exact Or.inr rfl
        · rcases mem_mKeys_mInsert h with h1 | rfl
          · simp [mKeys] at h1
          · exact Or.inl rfl
      · simp [mKeys] at h
  · simp [mKeys] at h

theorem mKeys_harvestBase_not_mem (read : ReadOutcome) (body : Html) (im sp : Bool)
    (k : String) (h1 : k ≠ "description") (h2 : k ≠ "author") (h3 : k ≠ "keywords")
    (h4 : k ≠ "title") (h5 : jsIncludes k "og:" = false) :
    k ∉ mKeys (harvestBase body (simplifyStep read body im sp).2) := by
  intro hin
  rw [harvestBase] at hin
  rcases mKeys_processMetas (findMetas body) hin with hA | hA | hA | hA | hA
  · rcases mKeys_titleFallback hA with hB | hB
    · rcases mKeys_seed read body im sp hB with hC | hC
      · exact h4 hC
      · exact h2 hC
    · exact h4 hB
  · exact h1 hA
  · exact h2 hA
  · exact h3 hA
  · rw [h5] at hA; cases hA

theorem fetchSingleUrl_ok_with_metadata (env : FetchEnv) (url : String) (sp : Bool)
    (st : Nat) (stx : String) (body : Html)
    (h : env.transport = .response st stx body) (hlt : st < 400) :
    fetchSingleUrl env url true sp =
      .ok (renderFrontMatter (finalMetadata env.read body url env.now true sp) ++
           (simplifyStep env.read body true sp).1) := by
  have hpos : 0 < (finalMetadata env.read body url env.now true sp).length := by
    rw [finalMetadata, if_pos rfl, harvestMetadata]
    exact length_pos_mInsert _ _ _
  simp only [fetchSingleUrl, h]
  rw [if_pos hlt, if_pos (⟨by trivial, hpos⟩ : _ ∧ _)]

/-- C7: with metadata requested and a response accepted, the synthetic
`url` and `fetchedAt` entries are appended as the final two entries of
the assembled metadata (their keys never occur earlier, even for a
document with no meta tags and no title), and the success text is the
front-matter block over that mapping — one `key: value` line per entry
in insertion order, delimited by `---` — followed by the markdown
body, so it contains the `url` and `fetchedAt` lines. -/
theorem synthetic_metadata (env : FetchEnv) (url : String) (sp : Bool)
    (st : Nat) (stx : String) (body : Html)
    (h : env.transport = .response st stx body) (hlt : st < 400) :
    finalMetadata env.read body url env.now true sp =
      harvestBase body (simplifyStep env.read body true sp).2 ++
        [("url", url), ("fetchedAt", env.now)] ∧
    "url" ∉ mKeys (harvestBase body (simplifyStep env.read body true sp).2) ∧
    "fetchedAt" ∉ mKeys (harvestBase body (simplifyStep env.read body true sp).2) ∧
    fetchSingleUrl env url true sp =
      .ok (renderFrontMatter (finalMetadata env.read body url env.now true sp) ++
           (simplifyStep env.read body true sp).1) ∧
    SubStr ("url: " ++ url ++ "\n")
      (renderFrontMatter (finalMetadata env.read body url env.now true sp)) ∧
    SubStr ("fetchedAt: " ++ env.now ++ "\n")
      (renderFrontMatter (finalMetadata env.read body url env.now true sp)) := by
  have hurl : "url" ∉ mKeys (harvestBase body (simplifyStep env.read body true sp).2) :=
    mKeys_harvestBase_not_mem env.read body true sp "url" (by decide) (by decide)
      (by decide) (by decide) (by decide)
  have hfet : "fetchedAt" ∉ mKeys (harvestBase body (simplifyStep env.read body true sp).2) :=
    mKeys_harvestBase_not_mem env.read body true sp "fetchedAt" (by decide) (by decide)
      (by decide) (by decide) (by decide)
  have hfet2 : "fetchedAt" ∉
      mKeys (harvestBase body (simplifyStep env.read body true sp).2 ++ [("url", url)]) := by
    intro hin
    rw [mKeys, List.map_append] at hin
    rcases List.mem_append.mp hin with h1 | h1
    · exact hfet h1
    · simp at h1
  have hMeta : finalMetadata env.read body url env.now true sp =
      harvestBase body (simplifyStep env.read body true sp).2 ++
        [("url", url), ("fetchedAt", env.now)] := by
    rw [finalMetadata, if_pos rfl, harvestMetadata, mInsert_of_not_mem url hurl,
      mInsert_of_not_mem env.now hfet2, List.append_assoc]
    rfl
  have hline : ∀ kv ∈ finalMetadata env.read body url env.now true sp,
      SubStr (kv.1 ++ ": " ++ kv.2 ++ "\n")
        (renderFrontMatter (finalMetadata env.read body url env.now true sp)) := by
    intro kv hkv
    rw [renderFrontMatter_eq]
    exact SubStr.append_right "---\n\n"
      (SubStr.append_left "---\n"
        (subStr_joinStr_of_mem
          (List.mem_map_of_mem (fun kv => kv.1 ++ ": " ++ kv.2 ++ "\n") hkv)))
  refine ⟨hMeta, hurl, hfet,
    fetchSingleUrl_ok_with_metadata env url sp st stx body h hlt, ?_, ?_⟩
  · have hm : ("url", url) ∈ finalMetadata env.read body url env.now true sp := by
      rw [hMeta]; simp
    have hs := hline ("url", url) hm
    rwa [show ("url" : String) ++ ": " = "url: " from rfl] at hs
  · have hm : ("fetchedAt", env.now) ∈ finalMetadata env.read body url env.now true sp := by
      rw [hMeta]; simp
    have hs := hline ("fetchedAt", env.now) hm
    rwa [show ("fetchedAt" : String) ++ ": " = "fetchedAt: " from rfl] at hs

/-- C7 witness: a document with no meta tags and no title still yields
the two synthetic entries and the front-matter lines. -/
theorem synthetic_metadata_witness :
    finalMetadata (.result none) (.elem "div" [] []) "http://x/" "T" true true =
      harvestBase (.elem "div" [] [])
          (simplifyStep (.result none) (.elem "div" [] []) true true).2 ++
        [("url", "http://x/"), ("fetchedAt", "T")] ∧
    "url" ∉ mKeys (harvestBase (.elem "div" [] [])
        (simplifyStep (.result none) (.elem "div" [] []) true true).2) ∧
    "fetchedAt" ∉ mKeys (harvestBase (.elem "div" [] [])
        (simplifyStep (.result none) (.elem "div" [] []) true true).2) ∧
    fetchSingleUrl ⟨.response 200 "OK" (.elem "div" [] []), .result none, "T"⟩
        "http://x/" true true =
      .ok (renderFrontMatter
            (finalMetadata (.result none) (.elem "div" [] []) "http://x/" "T" true true) ++
           (simplifyStep (.result none) (.elem "div" [] []) true true).1) ∧
    SubStr ("url: " ++ "http://x/" ++ "\n")
      (renderFrontMatter
        (finalMetadata (.result none) (.elem "div" [] []) "http://x/" "T" true true)) ∧
    SubStr ("fetchedAt: " ++ "T" ++ "\n")
      (renderFrontMatter
        (finalMetadata (.result none) (.elem "div" [] []) "http://x/" "T" true true)) :=
  synthetic_metadata ⟨.response 200 "OK" (.elem "div" [] []), .result none, "T"⟩
    "http://x/" true 200 "OK" (.elem "div" [] []) rfl (by decide)

/-! ## C4: meta-tag classification -/

theorem processMeta_destKey (m : Metadata) (attrs : List (String × String)) :
    processMeta m attrs =
      match destKey attrs with
      | some kc => mInsert m kc.1 kc.2
      | none => m := by
  rcases hmk : metaKey attrs with _ | k
  · rcases hct : getAttr attrs "content" with _ | c <;>
      simp only [processMeta, destKey, hmk, hct]
  · rcases hct : getAttr attrs "content" with _ | c
    · simp only [processMeta, destKey, hmk, hct]
    · simp only [processMeta, destKey, hmk, hct]
      by_cases h1 : k = "" ∨ c = ""
      · rw [if_pos h1, if_pos h1]
      · rw [if_neg h1, if_neg h1]
        by_cases h2 : jsIncludes k "description" = true
        · rw [if_pos h2, if_pos h2]
        · rw [if_neg h2, if_neg h2]
          by_cases h3 : jsIncludes k "author" = true
          · rw [if_pos h3, if_pos h3]
          · rw [if_neg h3, if_neg h3]
            by_cases h4 : jsIncludes k "keywords" = true
            · rw [if_pos h4, if_pos h4]
            · rw [if_neg h4, if_neg h4]
              by_cases h5 : jsIncludes k "og:" = true
              · rw [if_pos h5, if_pos h5]
              · rw [if_neg h5, if_neg h5]

theorem mLookup_processMeta_of_ne {m : Metadata} {dk : String}
    (attrs : List (String × String))
    (h : ∀ kc, destKey attrs = some kc → kc.1 ≠ dk) :
    mLookup (processMeta m attrs) dk = mLookup m dk := by
  rw [processMeta_destKey]
  rcases hd : destKey attrs with _ | kc
  · simp only [hd]
  · simp only [hd]
    exact mLookup_mInsert_ne (h kc hd) kc.2 m

theorem mLookup_foldl_of_ne {dk : String} :
    ∀ (ts : List (List (String × String))) {m : Metadata},
      (∀ t2 ∈ ts, ∀ kc, destKey t2 = some kc → kc.1 ≠ dk) →
      mLookup (ts.foldl processMeta m) dk = mLookup m dk := by
  intro ts
  induction ts with
  | nil => intro m _; rfl
  | cons t ts2 ih =>
      intro m hall
      rw [List.foldl_cons,
        @ih (processMeta m t) (fun t2 ht2 => hall t2 (List.mem_cons_of_mem t ht2))]
      exact mLookup_processMeta_of_ne t (hall t (List.mem_cons_self t ts2))

/-- C4: a meta tag carrying a non-empty key candidate (`name`, or
`property` where `name` is not truthy) and non-empty content is
classified by case-sensitive substring match in the fixed priority
order description, author, keywords, `og:` (the last stored verbatim
under its own key), any other tag leaving the map unchanged; and over
a whole tag list, the last tag in document order assigning a
destination key determines its final value. -/
theorem meta_classification (m : Metadata) (attrs : List (String × String))
    (k c : String) (hk : metaKey attrs = some k) (hc : getAttr attrs "content" = some c)
    (hk0 : k ≠ "") (hc0 : c ≠ "") :
    (processMeta m attrs =
      if jsIncludes k "description" then mInsert m "description" c
      else if jsIncludes k "author" then mInsert m "author" c
      else if jsIncludes k "keywords" then mInsert m "keywords" c
      else if jsIncludes k "og:" then mInsert m k c
      else m) ∧
    (∀ (ts1 ts2 : List (List (String × String))) (dk v : String),
      destKey attrs = some (dk, v) →
      (∀ t2 ∈ ts2, ∀ kc, destKey t2 = some kc → kc.1 ≠ dk) →
      mLookup ((ts1 ++ attrs :: ts2).foldl processMeta m) dk = some v) := by
  constructor
  · simp only [processMeta, hk, hc]
    rw [if_neg (not_or.mpr ⟨hk0, hc0⟩)]
  · intro ts1 ts2 dk v hd hafter
    rw [List.foldl_append, List.foldl_cons, mLookup_foldl_of_ne ts2 hafter,
      processMeta_destKey, hd]
    exact mLookup_mInsert_self dk v _

/-- C4 witness: an `og:title` tag is stored verbatim under its own
key, and with two `og:title` tags the later one wins. -/
theorem meta_classification_witness :
    (processMeta [] [("property", "og:title"), ("content", "t1")] =
      if jsIncludes "og:title" "description" then mInsert [] "description" "t1"
      else if jsIncludes "og:title" "author" then mInsert [] "author" "t1"
      else if jsIncludes "og:title" "keywords" then mInsert [] "keywords" "t1"
      else if jsIncludes "og:title" "og:" then mInsert [] "og:title" "t1"
      else []) ∧
    mLookup ([[("name", "description"), ("content", "d1")],
              [("property", "og:title"), ("content", "t1")],
              [("property", "og:title"), ("content", "t2")]].foldl processMeta [])
      "og:title" = some "t2" :=
  ⟨(meta_classification [] [("property", "og:title"), ("content", "t1")]
      "og:title" "t1" rfl rfl (by decide) (by decide)).1,
   (meta_classification [] [("property", "og:title"), ("content", "t2")]
      "og:title" "t2" rfl rfl (by decide) (by decide)).2
     [[("name", "description"), ("content", "d1")],
      [("property", "og:title"), ("content", "t1")]] [] "og:title" "t2" rfl
     (fun t2 ht2 => absurd ht2 (List.not_mem_nil t2))⟩

end Fetch
